import Mathlib

/-!
Verification development for `src/meeting_notes_converter.py`.

The parser (`parse_markdown`, `_extract_mentions`) and the translator
(`MeetingNotesConverter.populate_document`, `create_document`,
`convert_notes_to_doc`) are embedded shallowly: Python strings become
`List Char`, the two `re.match` patterns become explicit matchers with the
same backtracking semantics, remote calls become injected `Except`-valued
functions, and the request dictionaries become a tagged `Request` type.
-/

namespace MeetingNotes

/-- Characters of a Lean string literal, used to write concrete inputs. -/
def chars (s : String) : List Char := s.data

/-- Python whitespace (the ASCII characters matched by `\s` and stripped by
`str.strip`): space, tab, newline, carriage return, vertical tab, form feed. -/
def isSpace (c : Char) : Bool :=
  c == ' ' || c == '\t' || c == '\n' || c == '\r' || c == Char.ofNat 11 || c == Char.ofNat 12

/-- Python word characters as matched by `\w` (ASCII): letters, digits, underscore. -/
def isWordChar (c : Char) : Bool :=
  ('a' ≤ c && c ≤ 'z') || ('A' ≤ c && c ≤ 'Z') || ('0' ≤ c && c ≤ '9') || c == '_'

/-- Length of the maximal run of characters satisfying `p` at the head of the list. -/
def countLeading (p : Char → Bool) : List Char → Nat
  | [] => 0
  | c :: cs => if p c then countLeading p cs + 1 else 0

/-- `str.rstrip()`: drop trailing whitespace. -/
def rstrip (l : List Char) : List Char := (l.reverse.dropWhile isSpace).reverse

/-- `str.strip()`: drop leading and trailing whitespace. -/
def strip (l : List Char) : List Char := (rstrip l).dropWhile isSpace

/-- `str.lower()` (ASCII model). -/
def lower (l : List Char) : List Char := l.map Char.toLower

/-- `str.startswith(pre)`: does the second list begin with the first? -/
def startsWith : List Char → List Char → Bool
  | [], _ => true
  | _ :: _, [] => false
  | p :: ps, c :: cs => p == c && startsWith ps cs

/-- Helper for `splitlines`, accumulating the current line in reverse. -/
def splitlinesAux : List Char → List Char → List (List Char)
  | [], acc => if acc.isEmpty then [] else [acc.reverse]
  | '\r' :: '\n' :: rest, acc => acc.reverse :: splitlinesAux rest []
  | '\n' :: rest, acc => acc.reverse :: splitlinesAux rest []
  | '\r' :: rest, acc => acc.reverse :: splitlinesAux rest []
  | '\x0b' :: rest, acc => acc.reverse :: splitlinesAux rest []
  | '\x0c' :: rest, acc => acc.reverse :: splitlinesAux rest []
  | c :: rest, acc => splitlinesAux rest (c :: acc)

/-- `str.splitlines()`, modelling the ASCII line separators `\n`, `\r`,
`\r\n`, `\v` and `\f`. -/
def splitlines (l : List Char) : List (List Char) := splitlinesAux l []

/-- One classified input line (the Python `ParagraphSpec` dataclass, with the
same defaults). -/
structure ParagraphSpec where
  text : List Char
  named_style : String := "NORMAL_TEXT"
  bullet : Bool := false
  checkbox : Bool := false
  indent_level : Nat := 0
  is_footer : Bool := false
  mention_spans : List (Nat × Nat) := []
deriving DecidableEq, Repr

/-- Helper for `_extract_mentions`: scan for matches of the regex `@\w+`
exactly as `re.finditer` does — at a `@` followed by at least one word
character, take the maximal word run as a match and resume right after it;
otherwise advance one character.  `i` is the absolute offset of the head of
the remaining list.  The `fuel` argument only makes the recursion structural;
any `fuel ≥` the list length gives the scan's value. -/
def extractMentionsAux : Nat → List Char → Nat → List (Nat × Nat)
  | 0, _, _ => []
  | _ + 1, [], _ => []
  | fuel + 1, c :: rest, i =>
    if c == '@' then
      if 0 < countLeading isWordChar rest then
        (i, i + 1 + countLeading isWordChar rest)
          :: extractMentionsAux fuel (rest.drop (countLeading isWordChar rest))
              (i + 1 + countLeading isWordChar rest)
      else
        extractMentionsAux fuel rest (i + 1)
    else
      extractMentionsAux fuel rest (i + 1)

/-- `_extract_mentions(text)`: the `(start, end)` pairs of every match of
`MENTION_PATTERN = @\w+` in `text`, in scan order. -/
def extract_mentions (text : List Char) : List (Nat × Nat) :=
  extractMentionsAux text.length text 0

/-- The specification of `_extract_mentions` output, following the spec's
words: `spans` are exactly the maximal `@\w+` runs of `text`, left to right,
non-overlapping, each a valid half-open sub-range starting with `@`.
Concretely: every span `(s, e)` has `s + 1 < e ≤ length text` (an `@` plus at
least one word character), starts with `@`, continues with word characters,
and is right-maximal (the character at `e`, if any, is not a word character);
spans are pairwise ordered and disjoint (`e₁ ≤ s₂` for consecutive pairs);
and conversely every position where `@` is followed by a word character is
the start of some span. -/
def SpanProps (text : List Char) (spans : List (Nat × Nat)) : Prop :=
  (∀ s e, (s, e) ∈ spans →
      s + 1 < e ∧ e ≤ text.length
      ∧ text.get? s = some '@'
      ∧ (∀ k, s < k → k < e → ∃ c, text.get? k = some c ∧ isWordChar c = true)
      ∧ (∀ c, text.get? e = some c → isWordChar c = false))
  ∧ List.Pairwise (fun sp1 sp2 => sp1.2 ≤ sp2.1) spans
  ∧ (∀ i c, text.get? i = some '@' → text.get? (i + 1) = some c →
      isWordChar c = true → ∃ e, (i, e) ∈ spans)

/-- The heading pattern `re.match(r"^(#{1,6})\s+(.*)", line)`.
Backtracking note: shortening the greedy `#{1,6}` group never helps, because
the character after fewer `#`s is again `#`, which `\s+` cannot match; so the
match succeeds exactly when the maximal leading `#` run has length 1–6 and is
followed by at least one whitespace character.  Returns the `#` count and the
title group (the rest of the line after the maximal whitespace run). -/
def headingMatch (line : List Char) : Option (Nat × List Char) :=
  let n := countLeading (fun c => c == '#') line
  if 1 ≤ n ∧ n ≤ 6 then
    let rest := line.drop n
    let m := countLeading isSpace rest
    if 1 ≤ m then some (n, rest.drop m) else none
  else none

/-- The bullet pattern `re.match(r"^(\s*)([-*])\s+(.*)", line)`: maximal
leading whitespace, a `-` or `*` marker, at least one whitespace character,
then the remainder.  Returns the leading-whitespace width and the remainder
group. -/
def bulletMatch (line : List Char) : Option (Nat × List Char) :=
  let w := countLeading isSpace line
  match line.drop w with
  | [] => none
  | c :: rest =>
    if c == '-' || c == '*' then
      let m := countLeading isSpace rest
      if 1 ≤ m then some (w, rest.drop m) else none
    else none

/-- The body of the `for raw_line in markdown_text.splitlines()` loop of
`parse_markdown`: `none` when the line is dropped (blank after rstrip, or a
`---` horizontal rule), otherwise the single paragraph it contributes. -/
def classifyLine (raw_line : List Char) : Option ParagraphSpec :=
  let line := rstrip raw_line
  if line = [] then none
  else if strip line = chars ("---") then none
  else
    match headingMatch line with
    | some (n, title) =>
        some { text := strip title, named_style := "HEADING_" ++ toString (min n 3) }
    | none =>
      match bulletMatch line with
      | some (indentWidth, remainder) =>
          let checkbox := startsWith (chars ("[ ]")) remainder
          let content := if checkbox then strip (remainder.drop 3) else remainder
          let clean_text := strip content
          some { text := clean_text
                 bullet := true
                 checkbox := checkbox
                 indent_level := indentWidth / 2
                 mention_spans := extract_mentions clean_text }
      | none =>
          some { text := line
                 named_style := "NORMAL_TEXT"
                 is_footer :=
                   startsWith (chars ("meeting recorded")) (lower line)
                   || startsWith (chars ("duration")) (lower line)
                 mention_spans := extract_mentions line }

/-- `parse_markdown(markdown_text)`: classify each line, dropping blank and
horizontal-rule lines. -/
def parse_markdown (markdown_text : List Char) : List ParagraphSpec :=
  (splitlines markdown_text).filterMap classifyLine

/-- `INDENT_WIDTH_PT = 18`. -/
def INDENT_WIDTH_PT : Nat := 18

/-- An `{"rgbColor": {...}}` payload; the Python float literals are exact
decimals, modelled as rationals. -/
structure RgbColor where
  red : ℚ
  green : ℚ
  blue : ℚ
deriving DecidableEq, Repr

/-- A `"paragraphStyle"` payload (only the fields the module ever sets). -/
structure ParagraphStyle where
  namedStyleType : Option String := none
  indentStart : Option Nat := none
  indentFirstLine : Option Nat := none
deriving DecidableEq, Repr

/-- A `"textStyle"` payload (only the fields the module ever sets). -/
structure TextStyle where
  bold : Option Bool := none
  italic : Option Bool := none
  foregroundColor : Option RgbColor := none
deriving DecidableEq, Repr

/-- A half-open `{"startIndex": _, "endIndex": _}` range. -/
structure DocRange where
  startIndex : Nat
  endIndex : Nat
deriving DecidableEq, Repr

/-- One entry of the `requests` list built by `populate_document`, as a tagged
variant.  The trailing `String` of the style updates is the `"fields"` mask. -/
inductive Request where
  | insertText (index : Nat) (text : List Char)
  | updateParagraphStyle (range : DocRange) (paragraphStyle : ParagraphStyle) (fields : String)
  | createParagraphBullets (range : DocRange) (bulletPreset : String)
  | updateTextStyle (range : DocRange) (textStyle : TextStyle) (fields : String)
deriving DecidableEq, Repr

/-- Recognises the insertion requests of the first pass. -/
def isInsertText : Request → Bool
  | .insertText _ _ => true
  | _ => false

/-- The footer `updateTextStyle` request: italic plus muted gray
`rgb(0.4, 0.4, 0.4)` over `[start, start + len(text))`. -/
def footerRequest (start textLen : Nat) : Request :=
  .updateTextStyle ⟨start, start + textLen⟩
    { italic := some true, foregroundColor := some ⟨0.4, 0.4, 0.4⟩ }
    ("italic,foregroundColor")

/-- The mention `updateTextStyle` request: bold plus dark blue
`rgb(0.15, 0.15, 0.6)` over the absolute span. -/
def mentionRequest (a b : Nat) : Request :=
  .updateTextStyle ⟨a, b⟩
    { bold := some true, foregroundColor := some ⟨0.15, 0.15, 0.6⟩ }
    ("bold,foregroundColor")

/-- The first loop of `populate_document`: for each paragraph, in order,
append an `insertText` of `text + "\n"` at the cursor, record the occupied
range, and advance the cursor.  Returns `(requests, paragraph_ranges, cursor)`
as left by the loop. -/
def insertLoop : List ParagraphSpec → Nat → (List Request × List (Nat × Nat) × Nat)
  | [], cursor => ([], [], cursor)
  | spec :: rest, cursor =>
      let text := spec.text ++ ['\n']
      let next := insertLoop rest (cursor + text.length)
      (Request.insertText cursor text :: next.1,
       (cursor, cursor + text.length) :: next.2.1,
       next.2.2)

/-- The styling requests the second loop of `populate_document` appends for
one paragraph occupying `[start, stop)`, in the code's order: named style,
indentation, bullets, footer style, mention styles. -/
def styleRequests (spec : ParagraphSpec) (start stop : Nat) : List Request :=
  (if spec.named_style ≠ "NORMAL_TEXT" then
    [Request.updateParagraphStyle ⟨start, stop⟩
      { namedStyleType := some spec.named_style } ("namedStyleType")]
   else []) ++
  (if spec.bullet then
    (if spec.indent_level * INDENT_WIDTH_PT ≠ 0 then
      [Request.updateParagraphStyle ⟨start, stop⟩
        { indentStart := some (spec.indent_level * INDENT_WIDTH_PT),
          indentFirstLine := some (spec.indent_level * INDENT_WIDTH_PT) }
        ("indentStart,indentFirstLine")]
     else []) ++
    [Request.createParagraphBullets ⟨start, stop⟩
      (if spec.checkbox then "BULLET_CHECKBOX" else "BULLET_DISC_CIRCLE_SQUARE")]
   else []) ++
  (if spec.is_footer then [footerRequest start spec.text.length] else []) ++
  spec.mention_spans.map (fun sp => mentionRequest (start + sp.1) (start + sp.2))

/-- The second loop of `populate_document`, over `zip(paragraphs, paragraph_ranges)`. -/
def styleLoop : List (ParagraphSpec × (Nat × Nat)) → List Request
  | [] => []
  | (spec, range) :: rest => styleRequests spec range.1 range.2 ++ styleLoop rest

/-- The complete `requests` list `populate_document` submits: the insertion
pass followed by the styling pass. -/
def buildRequests (paragraphs : List ParagraphSpec) : List Request :=
  (insertLoop paragraphs 1).1
    ++ styleLoop (paragraphs.zip (insertLoop paragraphs 1).2.1)

/-- An `HttpError` raised by the remote Docs service. -/
structure HttpError where
  message : String
deriving DecidableEq, Repr

/-- The `RuntimeError` the module re-raises: a context message plus the
original exception kept as `__cause__` (`raise ... from exc`). -/
structure WrappedError where
  message : String
  cause : HttpError
deriving DecidableEq, Repr

/-- The remote Docs service, as the two calls the module makes:
`documents().create(body={"title": ...})` (returning the new `documentId`)
and `documents().batchUpdate(documentId=..., body={"requests": ...})`.
Each either succeeds or raises an `HttpError`. -/
structure DocsService where
  create : String → Except HttpError String
  batchUpdate : String → List Request → Except HttpError Unit

/-- `MeetingNotesConverter.create_document`: create a document with the given
title, wrapping an `HttpError` as `RuntimeError("Failed to create document: ...")`. -/
def create_document (svc : DocsService) (title : String) : Except WrappedError String :=
  match svc.create title with
  | .ok documentId => .ok documentId
  | .error exc => .error ⟨("Failed to create document: ") ++ exc.message, exc⟩

/-- `MeetingNotesConverter.populate_document`: build the request list and
submit it as one `batchUpdate`, wrapping an `HttpError` as
`RuntimeError("Failed to update document: ...")`. -/
def populate_document (svc : DocsService) (document_id : String)
    (paragraphs : List ParagraphSpec) : Except WrappedError Unit :=
  match svc.batchUpdate document_id (buildRequests paragraphs) with
  | .ok _ => .ok ()
  | .error exc => .error ⟨("Failed to update document: ") ++ exc.message, exc⟩

/-- `convert_notes_to_doc`: parse, create the document, populate it, return
the new document's id. -/
def convert_notes_to_doc (svc : DocsService) (markdown_text : List Char)
    (title : String) : Except WrappedError String :=
  let paragraphs := parse_markdown markdown_text
  match create_document svc title with
  | .error e => .error e
  | .ok document_id =>
    match populate_document svc document_id paragraphs with
    | .error e => .error e
    | .ok _ => .ok document_id

/-- Sum of `len(text) + 1` over a paragraph list: the total number of
characters the insertion pass writes. -/
def totalLen (paragraphs : List ParagraphSpec) : Nat :=
  (paragraphs.map (fun p => p.text.length + 1)).sum

/-- Absolute start offset of the `i`-th paragraph: cursor position 1 plus the
lengths of all earlier paragraphs. -/
def off (paragraphs : List ParagraphSpec) (i : Nat) : Nat :=
  1 + totalLen (paragraphs.take i)

/-- Lines `parse_markdown` drops: blank after `rstrip`, or a `---` horizontal
rule after a further `strip`. -/
def droppedLine (raw_line : List Char) : Bool :=
  rstrip raw_line == [] || strip (rstrip raw_line) == chars ("---")

/-- A small concrete paragraph sequence used to instantiate the translator
theorems. -/
def demoParagraphs : List ParagraphSpec :=
  [{ text := chars ("Agenda"), named_style := "HEADING_1" },
   { text := chars ("Ship @bob"), bullet := true, checkbox := true,
     mention_spans := [(5, 9)] },
   { text := chars ("Meeting recorded"), is_footer := true }]

/-- A service whose document creation fails, for instantiating the
error-wrapping theorem. -/
def createFailService : DocsService where
  create := fun _ => .error ⟨"quota exceeded"⟩
  batchUpdate := fun _ _ => .ok ()

/-- A service whose batch update fails, for instantiating the error-wrapping
theorem. -/
def updateFailService : DocsService where
  create := fun _ => .ok ("doc-1")
  batchUpdate := fun _ _ => .error ⟨"invalid range"⟩

/-! ## Basic lemmas about the character-level helpers -/

theorem countLeading_le (p : Char → Bool) (l : List Char) :
    countLeading p l ≤ l.length := by
  induction l with
  | nil => simp [countLeading]
  | cons c cs ih =>
    simp only [countLeading, List.length_cons]
    split <;> omega

theorem countLeading_get?_lt (p : Char → Bool) (l : List Char) (j : Nat)
    (h : j < countLeading p l) : ∃ c, l.get? j = some c ∧ p c = true := by
  induction l generalizing j with
  | nil => simp [countLeading] at h
  | cons c cs ih =>
    simp only [countLeading] at h
    by_cases hc : p c
    · simp only [hc, if_pos] at h
      cases j with
      | zero => exact ⟨c, rfl, hc⟩
      | succ j => exact ih j (by omega)
    · simp [hc] at h

theorem countLeading_get?_self (p : Char → Bool) (l : List Char) (c : Char)
    (h : l.get? (countLeading p l) = some c) : p c = false := by
  induction l generalizing c with
  | nil => simp at h
  | cons d cs ih =>
    simp only [countLeading] at h
    by_cases hd : p d
    · simp only [hd, if_pos] at h
      exact ih c h
    · simp only [hd, if_neg, Bool.false_eq_true, not_false_iff, List.get?] at h
      cases h
      simpa using hd

theorem countLeading_replicate_append (p : Char → Bool) (c : Char) (k : Nat)
    (rest : List Char) (hc : p c = true) :
    countLeading p (List.replicate k c ++ rest) = k + countLeading p rest := by
  induction k with
  | zero => simp
  | succ k ih =>
    have hrw : List.replicate (k + 1) c ++ rest = c :: (List.replicate k c ++ rest) := by
      simp [List.replicate_succ]
    rw [hrw]
    simp only [countLeading, hc, if_pos]
    omega

/-! ## Parser claims on concrete inputs -/

/-- C3: parsing the single line `"- [ ] Buy milk @alice"` yields exactly one
paragraph with `bullet=true`, `checkbox=true`, `text="Buy milk @alice"` and
`mention_spans=[(9,15)]`, the half-open offsets of `@alice` in the trimmed
text. -/
theorem parse_checkbox_mention_example :
    parse_markdown (chars ("- [ ] Buy milk @alice"))
      = [{ text := chars ("Buy milk @alice"), bullet := true, checkbox := true,
           mention_spans := [(9, 15)] }] := by
  decide

/-- C1, counterexample: the heading pattern `#{1,6}` cannot match a line with
seven leading `#` characters (after at most six `#`s the next character is
again `#`, never whitespace), so `"####### Deep"` falls through to the plain
branch: the result is a single `NORMAL_TEXT` paragraph whose text is the whole
line, not a `HEADING_3` paragraph as the claim states. -/
theorem seven_hash_heading_counterexample :
    parse_markdown (chars ("####### Deep")) = [{ text := chars ("####### Deep") }]
    ∧ (parse_markdown (chars ("####### Deep"))).map ParagraphSpec.named_style
        = ["NORMAL_TEXT"]
    ∧ ¬ (parse_markdown (chars ("####### Deep"))).map ParagraphSpec.named_style
        = ["HEADING_3"] := by
  refine ⟨by decide, by decide, by decide⟩

/-! ## Totality of line classification -/

theorem length_filterMap_isSome {α β : Type} (f : α → Option β) (l : List α) :
    (l.filterMap f).length = (l.filter (fun x => (f x).isSome)).length := by
  induction l with
  | nil => rfl
  | cons x xs ih =>
    cases hx : f x <;> simp [List.filterMap_cons, List.filter_cons, hx, ih]

theorem classifyLine_eq_none_iff (raw_line : List Char) :
    classifyLine raw_line = none ↔ droppedLine raw_line = true := by
  by_cases h1 : rstrip raw_line = []
  · simp [classifyLine, droppedLine, h1]
  · by_cases h2 : strip (rstrip raw_line) = chars ("---")
    · simp [classifyLine, droppedLine, h1, h2]
    · rcases hh : headingMatch (rstrip raw_line) with _ | ⟨n, title⟩
      · rcases hb : bulletMatch (rstrip raw_line) with _ | ⟨w, rem⟩
        · simp [classifyLine, droppedLine, h1, h2, hh, hb]
        · simp [classifyLine, droppedLine, h1, h2, hh, hb]
      · simp [classifyLine, droppedLine, h1, h2, hh]

theorem classifyLine_isSome (raw_line : List Char) :
    (classifyLine raw_line).isSome = !droppedLine raw_line := by
  by_cases hd : droppedLine raw_line = true
  · simp [(classifyLine_eq_none_iff _).mpr hd, hd]
  · rcases h : classifyLine raw_line with _ | p
    · exact absurd ((classifyLine_eq_none_iff _).mp h) hd
    · simp only [Bool.not_eq_true] at hd
      simp [hd]

/-- C2: parsing is total.  Line classification always returns a value: a line
yields no paragraph exactly when it is dropped (blank after `rstrip`, or a
`---` horizontal rule), and every other line — however malformed — yields
exactly one paragraph, so `parse_markdown` always returns a (possibly empty)
paragraph sequence, one paragraph per kept line. -/
theorem parse_markdown_total (markdown_text : List Char) :
    ((parse_markdown markdown_text).length
        = ((splitlines markdown_text).filter
            (fun raw_line => !droppedLine raw_line)).length)
    ∧ ∀ raw_line : List Char, (classifyLine raw_line).isSome = !droppedLine raw_line := by
  constructor
  · rw [parse_markdown, length_filterMap_isSome]
    simp only [classifyLine_isSome]
  · exact classifyLine_isSome

/-- C10: for every input text, every paragraph the parser produces satisfies
`checkbox = true → bullet = true`; only the bullet branch of the classifier
can set `checkbox`, and it always sets `bullet := true`. -/
theorem checkbox_implies_bullet (markdown_text : List Char) (p : ParagraphSpec)
    (hp : p ∈ parse_markdown markdown_text) (hcb : p.checkbox = true) :
    p.bullet = true := by
  rcases List.mem_filterMap.mp hp with ⟨raw_line, _, hc⟩
  by_cases h1 : rstrip raw_line = []
  · simp [classifyLine, h1] at hc
  · by_cases h2 : strip (rstrip raw_line) = chars ("---")
    · simp [classifyLine, h1, h2] at hc
    · rcases hh : headingMatch (rstrip raw_line) with _ | ⟨n, title⟩
      · rcases hb : bulletMatch (rstrip raw_line) with _ | ⟨w, rem⟩
        · simp [classifyLine, h1, h2, hh, hb] at hc
          subst hc
          simp at hcb
        · simp [classifyLine, h1, h2, hh, hb] at hc
          subst hc
          rfl
      · simp [classifyLine, h1, h2, hh] at hc
        subst hc
        simp at hcb

/-- Witness for C10 at a concrete input: the checkbox paragraph parsed from
`"- [ ] x"` is a bullet. -/
theorem checkbox_implies_bullet_witness :
    ParagraphSpec.bullet
      { text := chars ("x"), bullet := true, checkbox := true, mention_spans := [] }
      = true :=
  checkbox_implies_bullet (chars ("- [ ] x"))
    { text := chars ("x"), bullet := true, checkbox := true, mention_spans := [] }
    (by decide) rfl

/-! ## Lemmas about stripping and line splitting, for the heading claim -/

theorem dropWhile_length_le (p : Char → Bool) (l : List Char) :
    (l.dropWhile p).length ≤ l.length := by
  induction l with
  | nil => simp
  | cons c cs ih =>
    by_cases hc : p c
    · simp only [List.dropWhile_cons, hc, if_pos, List.length_cons]
      omega
    · simp [List.dropWhile_cons, hc]

theorem dropWhile_length_eq (p : Char → Bool) (l : List Char)
    (h : (l.dropWhile p).length = l.length) : l.dropWhile p = l := by
  induction l with
  | nil => rfl
  | cons c cs ih =>
    by_cases hc : p c
    · rw [List.dropWhile_cons, if_pos hc] at h ⊢
      have := dropWhile_length_le p cs
      simp at h
      omega
    · rw [List.dropWhile_cons, if_neg (by simp [hc])]

theorem dropWhile_eq_self_head (p : Char → Bool) (c : Char) (r : List Char)
    (h : (c :: r).dropWhile p = c :: r) : p c = false := by
  by_cases hc : p c
  · rw [List.dropWhile_cons, if_pos hc] at h
    have hl := congrArg List.length h
    have := dropWhile_length_le p r
    simp at hl
    omega
  · simpa using hc

theorem countLeading_eq_zero_of_dropWhile (p : Char → Bool) (l : List Char)
    (h : l.dropWhile p = l) : countLeading p l = 0 := by
  cases l with
  | nil => rfl
  | cons c r => simp [countLeading, dropWhile_eq_self_head p c r h]

theorem strip_parts (t : List Char) (h : strip t = t) :
    rstrip t = t ∧ t.dropWhile isSpace = t := by
  have hsub : strip t = (rstrip t).dropWhile isSpace := rfl
  have l1 : (rstrip t).length ≤ t.length := by
    unfold rstrip
    calc ((t.reverse.dropWhile isSpace).reverse).length
        = (t.reverse.dropWhile isSpace).length := by simp
      _ ≤ t.reverse.length := dropWhile_length_le _ _
      _ = t.length := by simp
  have l2 : ((rstrip t).dropWhile isSpace).length ≤ (rstrip t).length :=
    dropWhile_length_le _ _
  have l3 : (strip t).length = t.length := by rw [h]
  have e1 : (rstrip t).length = t.length := by
    rw [hsub] at l3
    omega
  have hr : rstrip t = t := by
    unfold rstrip at e1 ⊢
    have : (t.reverse.dropWhile isSpace).length = t.reverse.length := by
      simp at e1
      simpa using e1
    rw [dropWhile_length_eq _ _ this]
    simp
  refine ⟨hr, ?_⟩
  rw [hsub, hr] at h
  exact h

theorem rstrip_eq_self_rev (l : List Char)
    (h : l.reverse.dropWhile isSpace = l.reverse) : rstrip l = l := by
  unfold rstrip
  rw [h, List.reverse_reverse]

theorem rstrip_rev_dropWhile (l : List Char) (h : rstrip l = l) :
    l.reverse.dropWhile isSpace = l.reverse := by
  have := congrArg List.reverse h
  unfold rstrip at this
  simpa using this

theorem rstrip_append (A t : List Char) (ht : rstrip t = t) (hne : t ≠ []) :
    rstrip (A ++ t) = A ++ t := by
  apply rstrip_eq_self_rev
  rw [List.reverse_append]
  rcases hrv : t.reverse with _ | ⟨c, r⟩
  · exact absurd (by simpa using congrArg List.reverse hrv) hne
  · have hdw := rstrip_rev_dropWhile t ht
    rw [hrv] at hdw
    have hc : isSpace c = false := dropWhile_eq_self_head _ _ _ hdw
    rw [List.cons_append, List.dropWhile_cons, if_neg (by simp [hc])]

theorem splitlinesAux_no_sep (l : List Char) :
    ∀ acc : List Char,
      (∀ c ∈ l, (c = '\n' ∨ c = '\r' ∨ c = '\x0b' ∨ c = '\x0c') → False) →
      splitlinesAux l acc
        = if (acc.reverse ++ l).isEmpty then [] else [acc.reverse ++ l] := by
  induction l with
  | nil =>
    intro acc _
    cases acc <;> simp [splitlinesAux]
  | cons c rest ih =>
    intro acc h
    have hc := h c (by simp)
    have h1 : c ≠ '\n' := fun hh => hc (Or.inl hh)
    have h2 : c ≠ '\r' := fun hh => hc (Or.inr (Or.inl hh))
    have h3 : c ≠ '\x0b' := fun hh => hc (Or.inr (Or.inr (Or.inl hh)))
    have h4 : c ≠ '\x0c' := fun hh => hc (Or.inr (Or.inr (Or.inr hh)))
    have hstep : splitlinesAux (c :: rest) acc = splitlinesAux rest (c :: acc) := by
      simp [splitlinesAux, h1, h2, h3, h4]
    rw [hstep, ih (c :: acc) (fun d hd => h d (by simp [hd]))]
    simp

theorem splitlines_no_sep (l : List Char) (hne : l ≠ [])
    (h : ∀ c ∈ l, (c = '\n' ∨ c = '\r' ∨ c = '\x0b' ∨ c = '\x0c') → False) :
    splitlines l = [l] := by
  unfold splitlines
  rw [splitlinesAux_no_sep l [] h]
  simp [hne]

/-! ## The heading rule, as the code implements it -/

theorem headingMatch_replicate (k m : Nat) (t : List Char) (hk1 : 1 ≤ k) (hk6 : k ≤ 6)
    (hm : 1 ≤ m) (ht : countLeading isSpace t = 0) :
    headingMatch (List.replicate k '#' ++ (List.replicate m ' ' ++ t)) = some (k, t) := by
  have hn : countLeading (fun c => c == '#')
      (List.replicate k '#' ++ (List.replicate m ' ' ++ t)) = k := by
    rw [countLeading_replicate_append _ _ _ _ (by decide)]
    rcases m with _ | m'
    · omega
    · simp [List.replicate_succ, countLeading]
  have hdrop1 : (List.replicate k '#' ++ (List.replicate m ' ' ++ t)).drop k
      = List.replicate m ' ' ++ t := by
    have h := List.drop_left (List.replicate k '#') (List.replicate m ' ' ++ t)
    rwa [List.length_replicate] at h
  have hm2 : countLeading isSpace (List.replicate m ' ' ++ t) = m := by
    rw [countLeading_replicate_append _ _ _ _ (by decide), ht]
    omega
  have hdrop2 : (List.replicate m ' ' ++ t).drop m = t := by
    have h := List.drop_left (List.replicate m ' ') t
    rwa [List.length_replicate] at h
  simp only [headingMatch, hn, hdrop1, hm2, hdrop2]
  rw [if_pos ⟨hk1, hk6⟩, if_pos hm]

/-- C1, amended: a heading line must have between one and six leading `#`
characters (the `#{1,6}` pattern); for those, followed by one or more spaces
and title text, the level is the `#` count clamped to 3.  A line with seven
or more `#`s — in particular `"####### Deep"` — does not match the heading
rule and becomes a plain `NORMAL_TEXT` paragraph whose text is the whole
line. -/
theorem heading_clamp_amended :
    (∀ (k m : Nat) (t : List Char), 1 ≤ k → k ≤ 6 → 1 ≤ m → t ≠ [] → strip t = t →
      (∀ c ∈ t, (c = '\n' ∨ c = '\r' ∨ c = '\x0b' ∨ c = '\x0c') → False) →
      parse_markdown (List.replicate k '#' ++ List.replicate m ' ' ++ t)
        = [{ text := t, named_style := "HEADING_" ++ toString (min k 3) }])
    ∧ parse_markdown (chars ("####### Deep")) = [{ text := chars ("####### Deep") }] := by
  constructor
  · intro k m t hk1 hk6 hm1 hne hstrip hsep
    obtain ⟨hrt, hdw⟩ := strip_parts t hstrip
    have hLne : List.replicate k '#' ++ (List.replicate m ' ' ++ t) ≠ [] := by
      simp [hne]
    have hsepL : ∀ c ∈ List.replicate k '#' ++ (List.replicate m ' ' ++ t),
        (c = '\n' ∨ c = '\r' ∨ c = '\x0b' ∨ c = '\x0c') → False := by
      intro c hcL hor
      rcases List.mem_append.mp hcL with hA | hB
      · have hcc : c = '#' := List.eq_of_mem_replicate hA
        subst hcc
        rcases hor with h | h | h | h <;> exact absurd h (by decide)
      · rcases List.mem_append.mp hB with hSp | hct
        · have hcc : c = ' ' := List.eq_of_mem_replicate hSp
          subst hcc
          rcases hor with h | h | h | h <;> exact absurd h (by decide)
        · exact hsep c hct hor
    have hsplit : splitlines (List.replicate k '#' ++ (List.replicate m ' ' ++ t))
        = [List.replicate k '#' ++ (List.replicate m ' ' ++ t)] :=
      splitlines_no_sep _ hLne hsepL
    have hrs : rstrip (List.replicate k '#' ++ (List.replicate m ' ' ++ t))
        = List.replicate k '#' ++ (List.replicate m ' ' ++ t) := by
      have h1 : rstrip (List.replicate m ' ' ++ t) = List.replicate m ' ' ++ t :=
        rstrip_append (List.replicate m ' ') t hrt hne
      exact rstrip_append (List.replicate k '#') (List.replicate m ' ' ++ t) h1
        (by simp [hne])
    have hcons : ∃ r, List.replicate k '#' ++ (List.replicate m ' ' ++ t) = '#' :: r := by
      rcases k with _ | k'
      · omega
      · exact ⟨List.replicate k' '#' ++ (List.replicate m ' ' ++ t),
          by simp [List.replicate_succ]⟩
    obtain ⟨r, hr⟩ := hcons
    have hstripL : strip (List.replicate k '#' ++ (List.replicate m ' ' ++ t))
        = List.replicate k '#' ++ (List.replicate m ' ' ++ t) := by
      unfold strip
      rw [hrs, hr, List.dropWhile_cons, if_neg (by simp [isSpace])]
    have hnotHr : ¬ strip (List.replicate k '#' ++ (List.replicate m ' ' ++ t))
        = chars ("---") := by
      rw [hstripL, hr]
      intro h
      exact absurd (List.head_eq_of_cons_eq h) (by decide)
    have hHM : headingMatch (List.replicate k '#' ++ (List.replicate m ' ' ++ t))
        = some (k, t) :=
      headingMatch_replicate k m t hk1 hk6 hm1
        (countLeading_eq_zero_of_dropWhile _ _ hdw)
    have hcl : classifyLine (List.replicate k '#' ++ (List.replicate m ' ' ++ t))
        = some { text := t, named_style := "HEADING_" ++ toString (min k 3) } := by
      simp [classifyLine, hrs, hLne, hnotHr, hHM, hstrip]
    rw [parse_markdown, List.append_assoc, hsplit]
    simp [hcl]
  · decide

/-- Witness for the amended heading claim at `k = 4`, `m = 2`: four `#`s
followed by two spaces clamp to `HEADING_3`. -/
theorem heading_clamp_amended_witness :
    parse_markdown (List.replicate 4 '#' ++ List.replicate 2 ' ' ++ chars ("Deep"))
      = [{ text := chars ("Deep"), named_style := "HEADING_" ++ toString (min 4 3) }] :=
  heading_clamp_amended.1 4 2 (chars ("Deep")) (by decide) (by decide) (by decide)
    (by decide) (by decide) (by decide)

/-! ## The insertion pass: offsets, ranges and the final cursor -/

theorem totalLen_cons (q : ParagraphSpec) (l : List ParagraphSpec) :
    totalLen (q :: l) = (q.text.length + 1) + totalLen l := by
  simp [totalLen]

theorem insertLoop_cursor (ps : List ParagraphSpec) (c : Nat) :
    (insertLoop ps c).2.2 = c + totalLen ps := by
  induction ps generalizing c with
  | nil => simp [insertLoop, totalLen]
  | cons q rest ih =>
    simp only [insertLoop, ih, totalLen_cons, List.length_append, List.length_cons,
      List.length_nil]
    omega

theorem insertLoop_ranges_length (ps : List ParagraphSpec) (c : Nat) :
    (insertLoop ps c).2.1.length = ps.length := by
  induction ps generalizing c with
  | nil => rfl
  | cons q rest ih => simp [insertLoop, ih]

theorem insertLoop_reqs_length (ps : List ParagraphSpec) (c : Nat) :
    (insertLoop ps c).1.length = ps.length := by
  induction ps generalizing c with
  | nil => rfl
  | cons q rest ih => simp [insertLoop, ih]

theorem insertLoop_ranges_get? (ps : List ParagraphSpec) (c : Nat) (i : Nat)
    (p : ParagraphSpec) (h : ps.get? i = some p) :
    (insertLoop ps c).2.1.get? i
      = some (c + totalLen (ps.take i), c + totalLen (ps.take (i + 1))) := by
  induction ps generalizing c i with
  | nil => simp at h
  | cons q rest ih =>
    cases i with
    | zero =>
      simp only [List.get?] at h
      cases h
      simp only [insertLoop, List.get?, List.take_zero, List.take_succ_cons,
        totalLen, List.map_nil, List.sum_nil, List.map_cons, List.sum_cons,
        List.length_append, List.length_cons, List.length_nil, Option.some.injEq,
        Prod.mk.injEq]
      omega
    | succ i =>
      simp only [List.get?] at h
      simp only [insertLoop, List.get?]
      rw [ih (c + (q.text ++ ['\n']).length) i h]
      simp only [List.take_succ_cons, totalLen_cons, List.length_append,
        List.length_cons, List.length_nil, Option.some.injEq, Prod.mk.injEq]
      omega

theorem insertLoop_reqs_get? (ps : List ParagraphSpec) (c : Nat) (i : Nat)
    (p : ParagraphSpec) (h : ps.get? i = some p) :
    (insertLoop ps c).1.get? i
      = some (Request.insertText (c + totalLen (ps.take i)) (p.text ++ ['\n'])) := by
  induction ps generalizing c i with
  | nil => simp at h
  | cons q rest ih =>
    cases i with
    | zero =>
      simp only [List.get?] at h
      cases h
      simp [insertLoop, totalLen]
    | succ i =>
      simp only [List.get?] at h
      simp only [insertLoop, List.get?]
      rw [ih (c + (q.text ++ ['\n']).length) i h]
      simp only [List.take_succ_cons, totalLen_cons, List.length_append,
        List.length_cons, List.length_nil, Option.some.injEq,
        Request.insertText.injEq]
      refine ⟨by omega, trivial⟩

theorem insertLoop_all_insert (ps : List ParagraphSpec) (c : Nat) :
    ∀ r ∈ (insertLoop ps c).1, isInsertText r = true := by
  induction ps generalizing c with
  | nil => simp [insertLoop]
  | cons q rest ih =>
    intro r hr
    simp only [insertLoop, List.mem_cons] at hr
    rcases hr with rfl | hr
    · rfl
    · exact ih _ r hr

theorem styleRequests_no_insert (spec : ParagraphSpec) (s e : Nat) :
    ∀ r ∈ styleRequests spec s e, isInsertText r = false := by
  intro r hr
  simp only [styleRequests, List.mem_append, List.mem_map] at hr
  rcases hr with (((h | h) | h) | h)
  · revert h
    split <;> intro h <;> simp at h
    subst h; rfl
  · revert h
    split <;> intro h
    · simp only [List.mem_append] at h
      rcases h with h | h
      · revert h
        split <;> intro h <;> simp at h
        subst h; rfl
      · simp at h; subst h; rfl
    · simp at h
  · revert h
    split <;> intro h <;> simp at h
    subst h; rfl
  · rcases h with ⟨sp, _, h⟩
    subst h; rfl

theorem styleLoop_no_insert (l : List (ParagraphSpec × (Nat × Nat))) :
    ∀ r ∈ styleLoop l, isInsertText r = false := by
  induction l with
  | nil => simp [styleLoop]
  | cons x rest ih =>
    intro r hr
    rcases x with ⟨spec, range⟩
    simp only [styleLoop, List.mem_append] at hr
    rcases hr with hr | hr
    · exact styleRequests_no_insert spec range.1 range.2 r hr
    · exact ih r hr

theorem totalLen_take_succ (ps : List ParagraphSpec) (i : Nat) (p : ParagraphSpec)
    (h : ps.get? i = some p) :
    totalLen (ps.take (i + 1)) = totalLen (ps.take i) + (p.text.length + 1) := by
  induction ps generalizing i with
  | nil => simp at h
  | cons q rest ih =>
    cases i with
    | zero =>
      simp only [List.get?, Option.some.injEq] at h
      subst h
      simp [totalLen]
    | succ i =>
      simp only [List.get?] at h
      simp only [List.take_succ_cons, totalLen_cons, ih i h]
      omega

/-- C5: for every paragraph sequence, the recorded ranges are one per
paragraph; the `i`-th range is `[off i, off (i+1))` of length
`len(text)+1`; consecutive ranges are contiguous (hence non-overlapping);
the first range starts at cursor position 1; and the final cursor is
`1 + Σ (len(text)+1)`. -/
theorem paragraph_ranges_contiguous (ps : List ParagraphSpec) :
    ((insertLoop ps 1).2.1.length = ps.length)
    ∧ (∀ i p, ps.get? i = some p →
        (insertLoop ps 1).2.1.get? i = some (off ps i, off ps (i + 1))
        ∧ off ps (i + 1) = off ps i + (p.text.length + 1))
    ∧ (∀ i a b c d, (insertLoop ps 1).2.1.get? i = some (a, b) →
        (insertLoop ps 1).2.1.get? (i + 1) = some (c, d) → c = b)
    ∧ (∀ a b, (insertLoop ps 1).2.1.get? 0 = some (a, b) → a = 1)
    ∧ ((insertLoop ps 1).2.2 = 1 + totalLen ps) := by
  have hchar : ∀ i p, ps.get? i = some p →
      (insertLoop ps 1).2.1.get? i = some (off ps i, off ps (i + 1))
      ∧ off ps (i + 1) = off ps i + (p.text.length + 1) := by
    intro i p h
    refine ⟨insertLoop_ranges_get? ps 1 i p h, ?_⟩
    unfold off
    rw [totalLen_take_succ ps i p h]
    omega
  refine ⟨insertLoop_ranges_length ps 1, hchar, ?_, ?_, insertLoop_cursor ps 1⟩
  · intro i a b c d hab hcd
    have hi : i < ps.length := by
      rcases List.get?_eq_some.mp hab with ⟨hl, _⟩
      rwa [insertLoop_ranges_length] at hl
    have hi1 : i + 1 < ps.length := by
      rcases List.get?_eq_some.mp hcd with ⟨hl, _⟩
      rwa [insertLoop_ranges_length] at hl
    have h1 := (hchar i (ps.get ⟨i, hi⟩) (List.get?_eq_get hi)).1
    have h2 := (hchar (i + 1) (ps.get ⟨i + 1, hi1⟩) (List.get?_eq_get hi1)).1
    rw [hab] at h1
    rw [hcd] at h2
    simp only [Option.some.injEq, Prod.mk.injEq] at h1 h2
    omega
  · intro a b hab
    have hi : 0 < ps.length := by
      rcases List.get?_eq_some.mp hab with ⟨hl, _⟩
      rwa [insertLoop_ranges_length] at hl
    have h1 := (hchar 0 (ps.get ⟨0, hi⟩) (List.get?_eq_get hi)).1
    rw [hab] at h1
    simp only [Option.some.injEq, Prod.mk.injEq] at h1
    rw [h1.1]
    simp [off, totalLen]

/-- Witness for C5 on a concrete paragraph sequence. -/
theorem paragraph_ranges_contiguous_witness :
    (insertLoop demoParagraphs 1).2.1.get? 1
        = some (off demoParagraphs 1, off demoParagraphs 2)
    ∧ off demoParagraphs 2 = off demoParagraphs 1 + ((chars ("Ship @bob")).length + 1) :=
  (paragraph_ranges_contiguous demoParagraphs).2.1 1
    { text := chars ("Ship @bob"), bullet := true, checkbox := true,
      mention_spans := [(5, 9)] } rfl

/-- C6: in the operation sequence built for any paragraph sequence, the first
`ps.length` entries are exactly the per-paragraph `insertText` operations, in
paragraph order at the precomputed offsets, and no entry after them is an
insertion: the insertion pass completes before the styling pass begins. -/
theorem insertions_precede_styling (ps : List ParagraphSpec) :
    (∀ i p, ps.get? i = some p →
        (buildRequests ps).get? i
          = some (Request.insertText (off ps i) (p.text ++ ['\n'])))
    ∧ ∀ r ∈ (buildRequests ps).drop ps.length, isInsertText r = false := by
  constructor
  · intro i p h
    have hi : i < ps.length := by
      by_contra hge
      rw [List.get?_eq_none.mpr (by omega)] at h
      exact Option.noConfusion h
    have hlen : i < (insertLoop ps 1).1.length := by
      rw [insertLoop_reqs_length]
      exact hi
    unfold buildRequests
    rw [List.get?_append hlen, insertLoop_reqs_get? ps 1 i p h]
    rfl
  · intro r hr
    unfold buildRequests at hr
    rw [show ps.length = (insertLoop ps 1).1.length
          from (insertLoop_reqs_length ps 1).symm, List.drop_left] at hr
    exact styleLoop_no_insert _ r hr

/-- Witness for C6 on a concrete paragraph sequence. -/
theorem insertions_precede_styling_witness :
    (buildRequests demoParagraphs).get? 0
      = some (Request.insertText (off demoParagraphs 0) (chars ("Agenda") ++ ['\n'])) :=
  (insertions_precede_styling demoParagraphs).1 0
    { text := chars ("Agenda"), named_style := "HEADING_1" } rfl

/-! ## Purity of the translator and error wrapping -/

/-- C8: building the batch is a pure function of the paragraph sequence: two
runs on the same paragraphs produce identical operation sequences, and
`populate_document` behaves identically on them against any service and any
target document — there is no hidden state between invocations. -/
theorem populate_deterministic (ps₁ ps₂ : List ParagraphSpec) (h : ps₁ = ps₂) :
    buildRequests ps₁ = buildRequests ps₂
    ∧ ∀ (svc : DocsService) (document_id : String),
        populate_document svc document_id ps₁
          = populate_document svc document_id ps₂ := by
  subst h
  exact ⟨rfl, fun _ _ => rfl⟩

/-- Witness for C8 on a concrete paragraph sequence and service. -/
theorem populate_deterministic_witness :
    buildRequests demoParagraphs = buildRequests demoParagraphs
    ∧ populate_document updateFailService "doc-1" demoParagraphs
        = populate_document updateFailService "doc-1" demoParagraphs :=
  ⟨(populate_deterministic demoParagraphs demoParagraphs rfl).1,
   (populate_deterministic demoParagraphs demoParagraphs rfl).2
      updateFailService "doc-1"⟩

/-- C9: every remote-service failure during creation or batch update is
caught at the call site and surfaces as a single wrapped error that carries
the original cause and a message naming the failed operation; no partial
result is exposed and no retry happens (each call is made once). -/
theorem remote_errors_wrapped (svc : DocsService) (markdown_text : List Char)
    (title : String) :
    (∀ e, svc.create title = .error e →
        convert_notes_to_doc svc markdown_text title
          = .error ⟨("Failed to create document: ") ++ e.message, e⟩)
    ∧ (∀ d e, svc.create title = .ok d →
        svc.batchUpdate d (buildRequests (parse_markdown markdown_text)) = .error e →
        convert_notes_to_doc svc markdown_text title
          = .error ⟨("Failed to update document: ") ++ e.message, e⟩) := by
  constructor
  · intro e he
    simp [convert_notes_to_doc, create_document, he]
  · intro d e hd he
    simp [convert_notes_to_doc, create_document, populate_document, hd, he]

/-- Witness for C9: a failing create and a failing batch update both surface
as the corresponding wrapped error. -/
theorem remote_errors_wrapped_witness :
    convert_notes_to_doc createFailService [] "Notes"
        = .error ⟨("Failed to create document: ") ++ "quota exceeded",
                  ⟨"quota exceeded"⟩⟩
    ∧ convert_notes_to_doc updateFailService [] "Notes"
        = .error ⟨("Failed to update document: ") ++ "invalid range",
                  ⟨"invalid range"⟩⟩ :=
  ⟨(remote_errors_wrapped createFailService [] "Notes").1 ⟨"quota exceeded"⟩ rfl,
   (remote_errors_wrapped updateFailService [] "Notes").2 "doc-1"
      ⟨"invalid range"⟩ rfl rfl⟩

/-! ## The footer styling operation -/

theorem footerRequest_ne_mention (s n a b : Nat) :
    footerRequest s n ≠ mentionRequest a b := by
  intro h
  simp [footerRequest, mentionRequest] at h

theorem count_footer_styleRequests (q : ParagraphSpec) (s e S N : Nat) :
    (styleRequests q s e).count (footerRequest S N)
      = if q.is_footer = true ∧ s = S ∧ q.text.length = N then 1 else 0 := by
  unfold styleRequests
  rw [List.count_append, List.count_append, List.count_append]
  have h1 : (if q.named_style ≠ "NORMAL_TEXT" then
      [Request.updateParagraphStyle ⟨s, e⟩
        { namedStyleType := some q.named_style } ("namedStyleType")]
     else []).count (footerRequest S N) = 0 := by
    split <;> simp [List.count_cons, footerRequest]
  have h2 : ((if q.bullet = true then
      (if q.indent_level * INDENT_WIDTH_PT ≠ 0 then
        [Request.updateParagraphStyle ⟨s, e⟩
          { indentStart := some (q.indent_level * INDENT_WIDTH_PT),
            indentFirstLine := some (q.indent_level * INDENT_WIDTH_PT) }
          ("indentStart,indentFirstLine")]
       else []) ++
      [Request.createParagraphBullets ⟨s, e⟩
        (if q.checkbox = true then "BULLET_CHECKBOX" else "BULLET_DISC_CIRCLE_SQUARE")]
     else []) : List Request).count (footerRequest S N) = 0 := by
    split_ifs <;>
      simp [List.count_append, List.count_cons, footerRequest]
  have h3 : (if q.is_footer = true then [footerRequest s q.text.length]
      else []).count (footerRequest S N)
      = if q.is_footer = true ∧ s = S ∧ q.text.length = N then 1 else 0 := by
    split_ifs with hf hc hc
    · obtain ⟨-, h4, h5⟩ := hc
      subst h4
      subst h5
      simp [List.count_cons]
    · rw [List.count_eq_zero]
      simp only [List.mem_singleton]
      intro hh
      simp only [footerRequest, Request.updateTextStyle.injEq, DocRange.mk.injEq] at hh
      exact hc ⟨hf, by omega, by omega⟩
    · exact absurd hc.1 hf
    · simp
  have h4 : (q.mention_spans.map
        (fun sp => mentionRequest (s + sp.1) (s + sp.2))).count (footerRequest S N)
      = 0 := by
    rw [List.count_eq_zero]
    intro hmem
    rcases List.mem_map.mp hmem with ⟨sp, _, hsp⟩
    exact footerRequest_ne_mention S N (s + sp.1) (s + sp.2) hsp.symm
  rw [h1, h2, h3, h4]
  omega

theorem zip_insertLoop_cons (q : ParagraphSpec) (rest : List ParagraphSpec) (c : Nat) :
    (q :: rest).zip ((insertLoop (q :: rest) c).2.1)
      = (q, (c, c + (q.text ++ ['\n']).length))
          :: rest.zip ((insertLoop rest (c + (q.text ++ ['\n']).length)).2.1) := rfl

theorem styleLoop_count_footer_lt (ps : List ParagraphSpec) (c S N : Nat)
    (hS : S < c) :
    (styleLoop (ps.zip (insertLoop ps c).2.1)).count (footerRequest S N) = 0 := by
  induction ps generalizing c with
  | nil => simp [insertLoop, styleLoop]
  | cons q rest ih =>
    rw [zip_insertLoop_cons]
    simp only [styleLoop, List.count_append]
    rw [count_footer_styleRequests,
      if_neg (by rintro ⟨-, hcS, -⟩; omega)]
    rw [ih (c + (q.text ++ ['\n']).length) (by simp; omega)]

theorem styleLoop_count_footer_eq (ps : List ParagraphSpec) (c i : Nat)
    (p : ParagraphSpec) (h : ps.get? i = some p) (hf : p.is_footer = true) :
    (styleLoop (ps.zip (insertLoop ps c).2.1)).count
      (footerRequest (c + totalLen (ps.take i)) p.text.length) = 1 := by
  induction ps generalizing c i with
  | nil => simp at h
  | cons q rest ih =>
    cases i with
    | zero =>
      simp only [List.get?, Option.some.injEq] at h
      subst h
      rw [zip_insertLoop_cons]
      simp only [styleLoop, List.count_append, List.take_zero]
      rw [count_footer_styleRequests,
        if_pos ⟨hf, by simp [totalLen], rfl⟩]
      rw [styleLoop_count_footer_lt rest (c + (q.text ++ ['\n']).length) _ _
        (by simp [totalLen])]
    | succ i =>
      simp only [List.get?] at h
      rw [zip_insertLoop_cons]
      simp only [styleLoop, List.count_append, List.take_succ_cons, totalLen_cons]
      rw [count_footer_styleRequests,
        if_neg (by rintro ⟨-, hcS, -⟩; omega)]
      have hrec := ih (c + (q.text ++ ['\n']).length) i h
      have harith : c + (q.text ++ ['\n']).length + totalLen (List.take i rest)
          = c + (q.text.length + 1 + totalLen (List.take i rest)) := by
        simp
        omega
      rw [harith] at hrec
      rw [hrec]

/-- C7: for every paragraph with `is_footer = true` occupying the range
`[start, start+len(text)+1)`, the built request list contains exactly one
text-style update over `[start, start+len(text))` — excluding the trailing
newline — applying italic and the muted gray foreground `rgb(0.4,0.4,0.4)`
(that is exactly `footerRequest start (len text)`). -/
theorem footer_styling_once (ps : List ParagraphSpec) (i : Nat)
    (p : ParagraphSpec) (hp : ps.get? i = some p) (hf : p.is_footer = true) :
    (buildRequests ps).count (footerRequest (off ps i) p.text.length) = 1 := by
  unfold buildRequests
  rw [List.count_append]
  have hins : (insertLoop ps 1).1.count (footerRequest (off ps i) p.text.length)
      = 0 := by
    rw [List.count_eq_zero]
    intro hmem
    have hins' := insertLoop_all_insert ps 1 _ hmem
    simp [footerRequest, isInsertText] at hins'
  rw [hins]
  have hcount := styleLoop_count_footer_eq ps 1 i p hp hf
  simpa [off] using hcount

/-- Witness for C7 on a concrete paragraph sequence whose third paragraph is
a footer. -/
theorem footer_styling_once_witness :
    (buildRequests demoParagraphs).count
        (footerRequest (off demoParagraphs 2) (chars ("Meeting recorded")).length)
      = 1 :=
  footer_styling_once demoParagraphs 2
    { text := chars ("Meeting recorded"), is_footer := true } rfl rfl

/-! ## The mention scanner: fuel irrelevance and offset shifting -/

theorem emAux_congr_fuel : ∀ (f1 f2 : Nat) (l : List Char) (i : Nat),
    l.length ≤ f1 → l.length ≤ f2 →
    extractMentionsAux f1 l i = extractMentionsAux f2 l i := by
  intro f1
  induction f1 with
  | zero =>
    intro f2 l i h1 _
    have hl : l = [] := List.eq_nil_of_length_eq_zero (by omega)
    subst hl
    cases f2 <;> rfl
  | succ f1 ih =>
    intro f2 l i h1 h2
    cases l with
    | nil => cases f2 <;> rfl
    | cons c rest =>
      cases f2 with
      | zero => simp at h2
      | succ f2 =>
        have hr1 : rest.length ≤ f1 := by simp at h1; omega
        have hr2 : rest.length ≤ f2 := by simp at h2; omega
        simp only [extractMentionsAux]
        split_ifs with hc hn
        · have hd : (rest.drop (countLeading isWordChar rest)).length ≤ rest.length := by
            rw [List.length_drop]
            omega
          rw [ih f2 _ _ (by omega) (by omega)]
        · rw [ih f2 rest (i + 1) hr1 hr2]
        · rw [ih f2 rest (i + 1) hr1 hr2]

theorem emAux_shift : ∀ (fuel : Nat) (l : List Char) (i : Nat),
    l.length ≤ fuel →
    extractMentionsAux fuel l i
      = (extractMentionsAux fuel l 0).map (fun sp => (sp.1 + i, sp.2 + i)) := by
  intro fuel
  induction fuel with
  | zero => intro l i _; rfl
  | succ fuel ih =>
    intro l i h
    cases l with
    | nil => rfl
    | cons c rest =>
      have hrest : rest.length ≤ fuel := by simp at h; omega
      have hdrop : (rest.drop (countLeading isWordChar rest)).length ≤ fuel := by
        rw [List.length_drop]
        omega
      simp only [extractMentionsAux]
      split_ifs with hc hn
      · rw [ih (rest.drop (countLeading isWordChar rest))
            (i + 1 + countLeading isWordChar rest) hdrop,
          ih (rest.drop (countLeading isWordChar rest))
            (0 + 1 + countLeading isWordChar rest) hdrop]
        simp only [List.map_cons, List.map_map]
        congr 1
        · simp only [Prod.mk.injEq]
          omega
        · apply List.map_congr_left
          intro sp _
          simp only [Function.comp_apply, Prod.mk.injEq]
          omega
      · rw [ih rest (i + 1) hrest, ih rest (0 + 1) hrest]
        simp only [List.map_map]
        apply List.map_congr_left
        intro sp _
        simp only [Function.comp_apply, Prod.mk.injEq]
        omega
      · rw [ih rest (i + 1) hrest, ih rest (0 + 1) hrest]
        simp only [List.map_map]
        apply List.map_congr_left
        intro sp _
        simp only [Function.comp_apply, Prod.mk.injEq]
        omega

theorem extract_mentions_cons_skip (c : Char) (rest : List Char)
    (h : (c == '@') = false ∨ countLeading isWordChar rest = 0) :
    extract_mentions (c :: rest)
      = (extract_mentions rest).map (fun sp => (sp.1 + 1, sp.2 + 1)) := by
  unfold extract_mentions
  simp only [List.length_cons, extractMentionsAux]
  have hstep : extractMentionsAux rest.length rest 1
      = (extractMentionsAux rest.length rest 0).map (fun sp => (sp.1 + 1, sp.2 + 1)) :=
    emAux_shift rest.length rest 1 le_rfl
  rcases h with h | h
  · rw [if_neg (by simp [h])]
    exact hstep
  · by_cases hc : (c == '@') = true
    · rw [if_pos hc, if_neg (by omega)]
      exact hstep
    · rw [if_neg hc]
      exact hstep

theorem extract_mentions_cons_match (rest : List Char)
    (h0 : 0 < countLeading isWordChar rest) :
    extract_mentions ('@' :: rest)
      = (0, 1 + countLeading isWordChar rest)
          :: (extract_mentions (rest.drop (countLeading isWordChar rest))).map
              (fun sp => (sp.1 + (1 + countLeading isWordChar rest),
                          sp.2 + (1 + countLeading isWordChar rest))) := by
  unfold extract_mentions
  simp only [List.length_cons, extractMentionsAux]
  rw [if_pos (show ('@' == '@') = true from rfl), if_pos h0]
  have hle : (rest.drop (countLeading isWordChar rest)).length ≤ rest.length := by
    rw [List.length_drop]
    omega
  congr 1
  rw [emAux_congr_fuel rest.length
      (rest.drop (countLeading isWordChar rest)).length _ _ hle le_rfl]
  rw [emAux_shift _ _ _ le_rfl]

/-! ## The mention-span specification -/

theorem spanProps_cons_step (c : Char) (rest : List Char) (spans : List (Nat × Nat))
    (hP : SpanProps rest spans)
    (h0 : ∀ c2, c = '@' → rest.get? 0 = some c2 → isWordChar c2 = false) :
    SpanProps (c :: rest) (spans.map (fun sp => (sp.1 + 1, sp.2 + 1))) := by
  obtain ⟨hmem, hpw, hcomp⟩ := hP
  refine ⟨?_, ?_, ?_⟩
  · intro s e hse
    rcases List.mem_map.mp hse with ⟨⟨a, b⟩, hab, heq⟩
    simp only [Prod.mk.injEq] at heq
    obtain ⟨hs, he⟩ := heq
    subst hs
    subst he
    obtain ⟨h1, h2, h3, h4, h5⟩ := hmem a b hab
    refine ⟨by omega, by simp; omega, h3, ?_, ?_⟩
    · intro k hk1 hk2
      cases k with
      | zero => omega
      | succ k =>
        obtain ⟨ch, hch, hw⟩ := h4 k (by omega) (by omega)
        exact ⟨ch, hch, hw⟩
    · intro ch hch
      exact h5 ch hch
  · exact hpw.map _ (fun a b hab => Nat.add_le_add_right hab 1)
  · intro i c2 hi hic hw
    cases i with
    | zero =>
      have hc : c = '@' := by simpa using hi
      have hf := h0 c2 hc hic
      rw [hw] at hf
      exact Bool.noConfusion hf
    | succ i =>
      obtain ⟨e, he⟩ := hcomp i c2 hi hic hw
      exact ⟨e + 1, List.mem_map.mpr ⟨(i, e), he, rfl⟩⟩

theorem spanProps_match_step (rest : List Char)
    (hn : 0 < countLeading isWordChar rest)
    (hd : SpanProps (rest.drop (countLeading isWordChar rest))
            (extract_mentions (rest.drop (countLeading isWordChar rest)))) :
    SpanProps ('@' :: rest) (extract_mentions ('@' :: rest)) := by
  obtain ⟨dmem, dpw, dcomp⟩ := hd
  have hnle : countLeading isWordChar rest ≤ rest.length := countLeading_le _ _
  have hdropidx : ∀ j, (rest.drop (countLeading isWordChar rest)).get? j
      = rest.get? (countLeading isWordChar rest + j) :=
    fun j => List.get?_drop rest _ j
  have hdroplen : (rest.drop (countLeading isWordChar rest)).length
      = rest.length - countLeading isWordChar rest := List.length_drop _ _
  rw [extract_mentions_cons_match rest hn]
  refine ⟨?_, ?_, ?_⟩
  · intro s e hse
    rcases List.mem_cons.mp hse with heq | htail
    · simp only [Prod.mk.injEq] at heq
      obtain ⟨hs, he⟩ := heq
      subst hs
      subst he
      refine ⟨by omega, by simp; omega, rfl, ?_, ?_⟩
      · intro k hk1 hk2
        cases k with
        | zero => omega
        | succ j =>
          obtain ⟨ch, hch, hw⟩ := countLeading_get?_lt isWordChar rest j (by omega)
          exact ⟨ch, hch, hw⟩
      · intro ch hch
        apply countLeading_get?_self isWordChar rest ch
        rw [show 1 + countLeading isWordChar rest
              = countLeading isWordChar rest + 1 by omega] at hch
        exact hch
    · rcases List.mem_map.mp htail with ⟨⟨a, b⟩, hab, heq⟩
      simp only [Prod.mk.injEq] at heq
      obtain ⟨hs, he⟩ := heq
      subst hs
      subst he
      obtain ⟨h1, h2, h3, h4, h5⟩ := dmem a b hab
      rw [hdroplen] at h2
      refine ⟨by omega, by simp; omega, ?_, ?_, ?_⟩
      · rw [show a + (1 + countLeading isWordChar rest)
              = (countLeading isWordChar rest + a) + 1 by omega]
        rw [hdropidx a] at h3
        exact h3
      · intro k hk1 hk2
        obtain ⟨ch, hch, hw⟩ :=
          h4 (k - 1 - countLeading isWordChar rest) (by omega) (by omega)
        refine ⟨ch, ?_, hw⟩
        rw [hdropidx] at hch
        rw [show k = (countLeading isWordChar rest
              + (k - 1 - countLeading isWordChar rest)) + 1 by omega]
        exact hch
      · intro ch hch
        apply h5 ch
        rw [show b + (1 + countLeading isWordChar rest)
              = (countLeading isWordChar rest + b) + 1 by omega] at hch
        rw [hdropidx b]
        exact hch
  · rw [List.pairwise_cons]
    constructor
    · intro y hy
      rcases List.mem_map.mp hy with ⟨⟨a, b⟩, _, heq⟩
      subst heq
      simp
    · exact dpw.map _ (fun a b hab => Nat.add_le_add_right hab _)
  · intro i c2 hi hic hw
    cases i with
    | zero => exact ⟨1 + countLeading isWordChar rest, List.mem_cons_self _ _⟩
    | succ j =>
      have hi' : rest.get? j = some '@' := hi
      have hic' : rest.get? (j + 1) = some c2 := hic
      have hj : ¬ j < countLeading isWordChar rest := by
        intro hjn
        obtain ⟨ch, hch, hwch⟩ := countLeading_get?_lt isWordChar rest j hjn
        rw [hi'] at hch
        cases hch
        exact Bool.noConfusion ((by decide : isWordChar '@' = false) ▸ hwch)
      have hd0 : (rest.drop (countLeading isWordChar rest)).get?
          (j - countLeading isWordChar rest) = some '@' := by
        rw [hdropidx, show countLeading isWordChar rest
              + (j - countLeading isWordChar rest) = j by omega]
        exact hi'
      have hd1 : (rest.drop (countLeading isWordChar rest)).get?
          ((j - countLeading isWordChar rest) + 1) = some c2 := by
        rw [hdropidx, show countLeading isWordChar rest
              + ((j - countLeading isWordChar rest) + 1) = j + 1 by omega]
        exact hic'
      obtain ⟨e', he'⟩ := dcomp (j - countLeading isWordChar rest) c2 hd0 hd1 hw
      refine ⟨e' + (1 + countLeading isWordChar rest), ?_⟩
      apply List.mem_cons_of_mem
      apply List.mem_map.mpr
      refine ⟨(j - countLeading isWordChar rest, e'), he', ?_⟩
      simp only [Prod.mk.injEq]
      exact ⟨by omega, trivial⟩

theorem emSpec : ∀ (fuel : Nat) (l : List Char), l.length ≤ fuel →
    SpanProps l (extract_mentions l) := by
  intro fuel
  induction fuel with
  | zero =>
    intro l h
    have hl : l = [] := List.eq_nil_of_length_eq_zero (by omega)
    subst hl
    refine ⟨?_, ?_, ?_⟩
    · intro s e hse
      simp [extract_mentions, extractMentionsAux] at hse
    · simp [extract_mentions, extractMentionsAux]
    · intro i c2 hi _ _
      simp at hi
  | succ fuel ih =>
    intro l h
    cases l with
    | nil =>
      refine ⟨?_, ?_, ?_⟩
      · intro s e hse
        simp [extract_mentions, extractMentionsAux] at hse
      · simp [extract_mentions, extractMentionsAux]
      · intro i c2 hi _ _
        simp at hi
    | cons c rest =>
      have hrest : rest.length ≤ fuel := by simp at h; omega
      by_cases hc : c = '@'
      · subst hc
        by_cases hn : 0 < countLeading isWordChar rest
        · apply spanProps_match_step rest hn
          apply ih
          rw [List.length_drop]
          omega
        · rw [extract_mentions_cons_skip '@' rest (Or.inr (by omega))]
          apply spanProps_cons_step _ _ _ (ih rest hrest)
          intro c2 _ hc2
          by_contra hwc
          simp only [Bool.not_eq_false] at hwc
          cases rest with
          | nil => simp at hc2
          | cons d tail =>
            have hd : d = c2 := by simpa using hc2
            subst hd
            rw [countLeading, if_pos hwc] at hn
            omega
      · rw [extract_mentions_cons_skip c rest
            (Or.inl (by simp [hc]))]
        apply spanProps_cons_step _ _ _ (ih rest hrest)
        intro c2 hcc _
        exact absurd hcc hc

/-- C4: for every text, the extracted mention spans are exactly the maximal
runs matching `@` followed by one or more word characters: every span is a
valid half-open sub-range starting with `@` followed by word characters and
is right-maximal; spans are listed left-to-right and non-overlapping; and
every position where `@` is followed by a word character starts a span. -/
theorem mention_spans_spec (text : List Char) :
    (∀ s e, (s, e) ∈ extract_mentions text →
        s + 1 < e ∧ e ≤ text.length
        ∧ text.get? s = some '@'
        ∧ (∀ k, s < k → k < e → ∃ c, text.get? k = some c ∧ isWordChar c = true)
        ∧ (∀ c, text.get? e = some c → isWordChar c = false))
    ∧ List.Pairwise (fun sp1 sp2 => sp1.2 ≤ sp2.1) (extract_mentions text)
    ∧ (∀ i c, text.get? i = some '@' → text.get? (i + 1) = some c →
        isWordChar c = true → ∃ e, (i, e) ∈ extract_mentions text) :=
  emSpec text.length text le_rfl

/-- Witness for C4: in `"Buy milk @alice"`, position 9 holds `@` followed by
a word character, so some span starts there. -/
theorem mention_spans_spec_witness :
    ∃ e, (9, e) ∈ extract_mentions (chars ("Buy milk @alice")) :=
  (mention_spans_spec (chars ("Buy milk @alice"))).2.2 9 'a'
    (by decide) (by decide) (by decide)

end MeetingNotes
